import Mathlib

/-!
Composite pattern: `Component`, `Leaf`, `Composite` (src/composite.h, src/composite.cpp)

The C++ program builds a graph of heap objects that refer to each other through
`std::shared_ptr` (child links) and `std::weak_ptr` (parent back-references).
The embedding is an object store:

* a reference `Ref` is the identity of an object (the address a non-null
  `shared_ptr` holds); `Option Ref` is a nullable pointer, `none` being `nullptr`;
* an object is a `Component`, either a `Leaf` or a `Composite`; both carry the
  inherited field `parent`, a `Composite` carries `children_` as well;
* the store `Heap` maps every reference to its object; member functions take the
  store and the receiver `self` and return the new store.

Dereferencing a null pointer is undefined behaviour; the member functions that
do so return `none`.  `Operation` recurses through the child links, which the
program never checks for cycles, so the embedding bounds the depth of the call
chain by a fuel argument and returns `none` when the bound is hit.

Object lifetime (reference counts, destructors, expiry of a `weak_ptr`) is not
part of the model: every object stays alive.
-/

namespace CompositePattern

/-- Identity of a heap object. -/
abbrev Ref := Nat

/-- The object a pointer refers to: `class Leaf` or `class Composite`, both
derived from `class Component`.  `parent` is `Component::parent`,
`children_` is `Composite::children_` in list order (front first). -/
inductive Component where
  | Leaf (parent : Option Ref)
  | Composite (parent : Option Ref) (children_ : List Ref)
  deriving DecidableEq

/-- The field `Component::parent` of an object. -/
def Component.parent : Component → Option Ref
  | .Leaf p => p
  | .Composite p _ => p

/-- The field `Composite::children_` of an object; a `Leaf` has no such field
and is read as having no children. -/
def Component.children_ : Component → List Ref
  | .Leaf _ => []
  | .Composite _ cs => cs

/-- The object after the assignment `this->parent = parent`. -/
def Component.assignParent : Component → Option Ref → Component
  | .Leaf _, p => .Leaf p
  | .Composite _ cs, p => .Composite p cs

/-- The object store. -/
abbrev Heap := Ref → Component

/-- The member `Component::SetParent` (composite.h 23-25): `this->parent = parent`. -/
def SetParent (s : Heap) (self : Ref) (parent : Option Ref) : Heap :=
  Function.update s self ((s self).assignParent parent)

/-- The member `Component::GetParent` (composite.h 26-28): `return this->parent`. -/
def GetParent (s : Heap) (self : Ref) : Option Ref :=
  (s self).parent

/-- The virtual member `Add`.  On a `Leaf` it is `Component::Add` (composite.h 36),
an empty body.  On a `Composite` it is `Composite::Add` (composite.h 82-85):
`children_.push_back(component)` and then `component->SetParent(shared_from_this())`,
which dereferences `component`. -/
def Add (s : Heap) (self : Ref) (component : Option Ref) : Option Heap :=
  match s self with
  | .Leaf _ => some s
  | .Composite p cs =>
    match component with
    | none => none
    | some x =>
      some (SetParent (Function.update s self (.Composite p (cs ++ [x]))) x (some self))

/-- The virtual member `Remove`.  On a `Leaf` it is `Component::Remove`
(composite.h 37), an empty body.  On a `Composite` it is `Composite::Remove`
(composite.h 91-94): `children_.remove(component)`, which for `std::list` erases
every element equal to `component`, and then `component->SetParent(nullptr)`,
which dereferences `component`. -/
def Remove (s : Heap) (self : Ref) (component : Option Ref) : Option Heap :=
  match s self with
  | .Leaf _ => some s
  | .Composite p cs =>
    match component with
    | none => none
    | some x =>
      some (SetParent (Function.update s self (.Composite p (cs.filter (fun c => c ≠ x)))) x none)

/-- The virtual member `IsComposite`: `Component::IsComposite` (composite.h 42-44)
on a `Leaf`, `Composite::IsComposite` (composite.h 95-97) on a `Composite`. -/
def IsComposite (s : Heap) (self : Ref) : Bool :=
  match s self with
  | .Leaf _ => false
  | .Composite _ _ => true

/-- The loop of `Composite::Operation` (composite.h 106-112) over the remaining
children, `result` being the accumulator, `back` the value of `children_.back()`
and `call c` the outcome of the nested call `c->Operation()` (`none` when it
does not return within the depth bound). -/
def OperationLoop (call : Ref → Option String) (back : Option Ref) :
    List Ref → String → Option String
  | [], result => some result
  | c :: rest, result =>
    if some c = back then
      match call c with
      | none => none
      | some r => OperationLoop call back rest (result ++ r)
    else
      match call c with
      | none => none
      | some r => OperationLoop call back rest (result ++ (r ++ "+"))

/-- The virtual member `Operation`: `Leaf::Operation` (composite.h 61-63) on a
`Leaf`, `Composite::Operation` (composite.h 104-114) on a `Composite`.  The
first argument bounds the depth of the chain of nested `Operation` calls, this
call included. -/
def Operation (s : Heap) : Nat → Ref → Option String
  | 0, _ => none
  | fuel + 1, self =>
    match s self with
    | .Leaf _ => some "Leaf"
    | .Composite _ cs =>
      match OperationLoop (Operation s fuel) cs.getLast? cs "" with
      | none => none
      | some result => some ("Branch(" ++ result ++ ")")

/-- A call a client can make on the store. -/
inductive Call where
  | SetParent (self : Ref) (parent : Option Ref)
  | Add (self : Ref) (component : Option Ref)
  | Remove (self : Ref) (component : Option Ref)
  | Operation (self : Ref)
  deriving DecidableEq

/-- The store after one call.  `Operation` is a `const` member: it leaves the
store as it is, and the client goes on only when the call returns (within the
depth bound `fuel`). -/
def exec (fuel : Nat) (s : Heap) : Call → Option Heap
  | .SetParent self parent => some (SetParent s self parent)
  | .Add self component => Add s self component
  | .Remove self component => Remove s self component
  | .Operation self =>
    match Operation s fuel self with
    | none => none
    | some _ => some s

/-- The store after a sequence of calls, made in list order. -/
def run (fuel : Nat) (s : Heap) : List Call → Option Heap
  | [] => some s
  | c :: rest =>
    match exec fuel s c with
    | none => none
    | some s' => run fuel s' rest

/-- The store right after construction of every object (`std::make_shared`):
no parent, no children.  References below `3` are leaves, the others composites. -/
def fresh : Heap := fun r =>
  if r < 3 then .Leaf none else .Composite none []

/-- The results `r1..rn` joined with a single `"+"` between consecutive results
and no trailing `"+"`, as the specification words the result of a `Composite`. -/
def joinPlus : List String → String
  | [] => ""
  | [r] => r
  | r :: rest => r ++ "+" ++ joinPlus rest

/-- The strings `r1..rn` one after the other, with nothing between them. -/
def concatAll : List String → String
  | [] => ""
  | r :: rest => r ++ concatAll rest

/-- The separator rule by identity: what is appended for the child `c` whose
result is `r`, when `back` is the last child: `r` alone when `c` is the same
object as `back`, and `r` followed by `"+"` otherwise. -/
def pieceByIdentity (back : Option Ref) (f : Ref → String) (c : Ref) : String :=
  if some c = back then f c else f c ++ "+"

/-- The child link: `b` is an element of `children_` of `a`. -/
def Child (s : Heap) (a b : Ref) : Prop :=
  b ∈ (s a).children_

/-- The object `b` is `a` itself or is reached from `a` through child links. -/
def Reach (s : Heap) (a b : Ref) : Prop :=
  Relation.ReflTransGen (Child s) a b

/-- The object `b` is a descendant of `a`: it is reached from `a` through one
or more child links. -/
def Descendant (s : Heap) (a b : Ref) : Prop :=
  Relation.TransGen (Child s) a b

/-- The child relation reachable from `n` is acyclic: no object reachable from
`n` has itself among its descendants. -/
def Acyclic (s : Heap) (n : Ref) : Prop :=
  ∀ c, Reach s n c → ¬ Descendant s c c

/-- The tree below `n` has at most `h` levels: every downward path from `n`
passes through at most `h` objects, `n` included.  A leaf and a composite
without children have one level. -/
def heightLE (s : Heap) : Nat → Ref → Bool
  | 0, _ => false
  | h + 1, n => (s n).children_.all (fun c => heightLE s h c)

/-- The height of the tree below `n`, counted in levels, is `h`: the least
bound on the number of objects on a downward path from `n`. -/
def IsHeight (s : Heap) (n : Ref) (h : Nat) : Prop :=
  heightLE s h n = true ∧ ∀ k, heightLE s k n = true → h ≤ k

/-- The objects met on the downward paths from `n` through at most `h` child
links (with repetitions). -/
def reachable (s : Heap) : Nat → Ref → List Ref
  | 0, n => [n]
  | h + 1, n => n :: (s n).children_.flatMap (fun c => reachable s h c)

/-- A store in which the leaf `0` is shared: the composite `3` has the children
`4` and `5`, the composite `4` has the child `0`, and the composite `5` has the
children `0` and `1`. -/
def sharedLeaf : Heap := fun r =>
  if r = 3 then .Composite none [4, 5]
  else if r = 4 then .Composite (some 3) [0]
  else if r = 5 then .Composite (some 3) [0, 1]
  else .Leaf none

/-- Whether a call removes or reassigns `x`: an `Add` or a `Remove` with `x` as
its argument, or a `SetParent` with `x` as its receiver. -/
def Call.reassigns (x : Ref) : Call → Bool
  | .SetParent self _ => decide (self = x)
  | .Add _ component => decide (component = some x)
  | .Remove _ component => decide (component = some x)
  | .Operation _ => false

/-- The usage discipline, for one call made in the state `s`: `Add(x)` only
when the parent back-reference of `x` is absent, `Remove(x)` on the receiver
`self` only when the parent back-reference of `x` identifies `self`, and no
direct call of `SetParent`.  `Operation` is always allowed; the discipline
says nothing about a null argument. -/
def Call.allowed (s : Heap) : Call → Bool
  | .SetParent _ _ => false
  | .Add _ (some x) => decide (GetParent s x = none)
  | .Add _ none => true
  | .Remove self (some x) => decide (GetParent s x = some self)
  | .Remove _ none => true
  | .Operation _ => true

/-- Every call of the sequence follows the usage discipline in the state it is
made in. -/
def disciplined (fuel : Nat) (s : Heap) : List Call → Bool
  | [] => true
  | c :: rest =>
    c.allowed s &&
      (match exec fuel s c with
       | none => true
       | some s' => disciplined fuel s' rest)

/-- Child sequences and parent back-references agree: `x` occurs in the child
sequence of `c` if and only if the parent back-reference of `x` identifies `c`,
and it occurs there at most once. -/
def Consistent (s : Heap) : Prop :=
  ∀ c x, (x ∈ (s c).children_ ↔ GetParent s x = some c) ∧ (s c).children_.count x ≤ 1

end CompositePattern

namespace CompositePattern

/-! ## Field access after an assignment to `parent` -/

@[simp] theorem children_assignParent (o : Component) (p : Option Ref) :
    (o.assignParent p).children_ = o.children_ := by
  cases o <;> rfl

@[simp] theorem parent_assignParent (o : Component) (p : Option Ref) :
    (o.assignParent p).parent = p := by
  cases o <;> rfl

theorem assignParent_eq_self (o : Component) (p : Option Ref) :
    o.assignParent p = o ↔ o.parent = p := by
  cases o <;> simp [Component.assignParent, Component.parent, eq_comm]

@[simp] theorem SetParent_same (s : Heap) (x : Ref) (p : Option Ref) :
    SetParent s x p x = (s x).assignParent p := by
  simp [SetParent]

theorem SetParent_other (s : Heap) (x : Ref) (p : Option Ref) (y : Ref) (h : y ≠ x) :
    SetParent s x p y = s y := by
  simp [SetParent, h]

@[simp] theorem SetParent_children (s : Heap) (x : Ref) (p : Option Ref) (r : Ref) :
    (SetParent s x p r).children_ = (s r).children_ := by
  by_cases h : r = x
  · subst h; simp
  · rw [SetParent_other s x p r h]

@[simp] theorem SetParent_IsComposite (s : Heap) (x : Ref) (p : Option Ref) (r : Ref) :
    IsComposite (SetParent s x p) r = IsComposite s r := by
  by_cases h : r = x
  · subst h
    simp only [IsComposite, SetParent_same]
    cases s r <;> rfl
  · simp only [IsComposite, SetParent_other s x p r h]

theorem update_children_IsComposite (s : Heap) (c : Ref) (p : Option Ref) (cs cs' : List Ref)
    (hc : s c = .Composite p cs) (r : Ref) :
    IsComposite (Function.update s c (.Composite p cs')) r = IsComposite s r := by
  by_cases h : r = c
  · subst h
    simp [IsComposite, hc]
  · simp [IsComposite, Function.update_noteq h]

/-! ## The overriders of `Composite` -/

theorem Add_Composite (s : Heap) (c x : Ref) (p : Option Ref) (cs : List Ref)
    (hc : s c = .Composite p cs) :
    Add s c (some x)
      = some (SetParent (Function.update s c (.Composite p (cs ++ [x]))) x (some c)) := by
  simp [Add, hc]

theorem Remove_Composite (s : Heap) (c x : Ref) (p : Option Ref) (cs : List Ref)
    (hc : s c = .Composite p cs) :
    Remove s c (some x)
      = some (SetParent (Function.update s c (.Composite p (cs.filter (fun y => y ≠ x)))) x
          none) := by
  simp [Remove, hc]

/-! ## `Composite::Add` -/

/-- C2: on a composite `c` whose child sequence is `cs`, `c.Add(x)` with `x` a
component returns, and the child sequence of `c` is then `cs` with `x` appended
at the end: `x` occurs once more than before (also when it was already a child,
and also when `x` is `c` itself) and the earlier children keep their places. -/
theorem Add_appends_child (s : Heap) (c x : Ref) (p : Option Ref) (cs : List Ref)
    (hc : s c = .Composite p cs) :
    ∃ s', Add s c (some x) = some s' ∧
      (s' c).children_ = cs ++ [x] ∧
      (s' c).children_.count x = cs.count x + 1 ∧
      (s' c).children_.length = cs.length + 1 ∧
      (∀ i, i < cs.length → (s' c).children_[i]? = cs[i]?) ∧
      (s' c).children_.getLast? = some x := by
  have hch : (SetParent (Function.update s c (.Composite p (cs ++ [x]))) x (some c) c).children_
      = cs ++ [x] := by
    rw [SetParent_children, Function.update_same]; rfl
  refine ⟨_, Add_Composite s c x p cs hc, ?_⟩
  rw [hch]
  refine ⟨rfl, by simp, by simp, ?_, by simp⟩
  intro i hi
  exact List.getElem?_append_left hi

/-- Witness of C2: the leaf `0` is added to the composite `3` that already has
it as its only child. -/
theorem Add_appends_child_witness :
    ∃ s', Add (Function.update fresh 3 (.Composite none [0])) 3 (some 0) = some s' ∧
      (s' 3).children_ = [0] ++ [0] ∧
      (s' 3).children_.count 0 = [0].count 0 + 1 ∧
      (s' 3).children_.length = [0].length + 1 ∧
      (∀ i, i < [0].length → (s' 3).children_[i]? = [0][i]?) ∧
      (s' 3).children_.getLast? = some 0 :=
  Add_appends_child (Function.update fresh 3 (.Composite none [0])) 3 0 none [0] (by decide)

/-- C3: on a composite `c`, after `c.Add(x)` with `x` a component, `x.GetParent()`
is `c`, whatever the parent back-reference of `x` was before. -/
theorem Add_sets_parent (s : Heap) (c x : Ref) (p : Option Ref) (cs : List Ref)
    (hc : s c = .Composite p cs) :
    ∃ s', Add s c (some x) = some s' ∧ GetParent s' x = some c := by
  refine ⟨_, Add_Composite s c x p cs hc, ?_⟩
  simp [GetParent]

/-- Witness of C3: the leaf `0`, whose parent is the composite `4`, is added to
the composite `3`. -/
theorem Add_sets_parent_witness :
    ∃ s', Add (SetParent fresh 0 (some 4)) 3 (some 0) = some s' ∧ GetParent s' 0 = some 3 :=
  Add_sets_parent (SetParent fresh 0 (some 4)) 3 0 none [] (by decide)

/-! ## `Composite::Remove` -/

/-- C4: on a composite `c` in whose child sequence `x` occurs at least once,
`c.Remove(x)` returns; afterwards the parent back-reference of `x` is absent,
so it does not identify `c`, and the child sequence of `c` is shorter than
before by at least one. -/
theorem Remove_present (s : Heap) (c x : Ref) (p : Option Ref) (cs : List Ref)
    (hc : s c = .Composite p cs) (hx : x ∈ cs) :
    ∃ s', Remove s c (some x) = some s' ∧
      GetParent s' x = none ∧
      GetParent s' x ≠ some c ∧
      (s' c).children_.length + 1 ≤ cs.length := by
  have hch : (SetParent (Function.update s c (.Composite p (cs.filter (fun y => y ≠ x)))) x
      none c).children_ = cs.filter (fun y => y ≠ x) := by
    rw [SetParent_children, Function.update_same]; rfl
  have hpar : GetParent (SetParent (Function.update s c
      (.Composite p (cs.filter (fun y => y ≠ x)))) x none) x = none := by
    simp [GetParent]
  refine ⟨_, Remove_Composite s c x p cs hc, hpar, ?_, ?_⟩
  · rw [hpar]; simp
  · rw [hch]
    exact List.length_filter_lt_length_iff_exists.2 ⟨x, hx, by simp⟩

/-- Witness of C4: the composite `3` has the children `0, 1, 0`, the parent of
the leaf `0` is `3`, and `0` is removed. -/
theorem Remove_present_witness :
    ∃ s', Remove (Function.update (SetParent fresh 0 (some 3)) 3 (.Composite none [0, 1, 0])) 3
        (some 0) = some s' ∧
      GetParent s' 0 = none ∧
      GetParent s' 0 ≠ some 3 ∧
      (s' 3).children_.length + 1 ≤ [0, 1, 0].length :=
  Remove_present (Function.update (SetParent fresh 0 (some 3)) 3 (.Composite none [0, 1, 0]))
    3 0 none [0, 1, 0] (by decide) (by decide)

/-- Counterexample to C5: the leaf `0` is added to the composite `4`; it is not
a child of the composite `3`, and `3.Remove(0)` still clears the parent
back-reference of `0`, which identified `4`: the store has changed. -/
theorem Remove_absent_changes_store :
    ∃ s s', Add fresh 4 (some 0) = some s ∧
      s 3 = .Composite none [] ∧ 0 ∉ (s 3).children_ ∧
      Remove s 3 (some 0) = some s' ∧
      GetParent s 0 = some 4 ∧ GetParent s' 0 = none ∧ s' ≠ s := by
  refine ⟨_, _, rfl, by decide, by decide, rfl, by decide, by decide, ?_⟩
  intro h
  have h0 := congrFun h 0
  revert h0
  decide

/-- C5, amended: on a composite `c` in whose child sequence `x` does not occur,
`c.Remove(x)` returns and does what `x.SetParent(nullptr)` alone does: every
child sequence is unchanged, every object other than `x` is unchanged, and the
parent back-reference of `x` is absent afterwards.  The store as a whole is
unchanged exactly when the parent back-reference of `x` was absent already. -/
theorem Remove_absent (s : Heap) (c x : Ref) (p : Option Ref) (cs : List Ref)
    (hc : s c = .Composite p cs) (hx : x ∉ cs) :
    ∃ s', Remove s c (some x) = some s' ∧
      s' = SetParent s x none ∧
      (∀ r, (s' r).children_ = (s r).children_) ∧
      (∀ y, y ≠ x → s' y = s y) ∧
      GetParent s' x = none ∧
      (s' = s ↔ GetParent s x = none) := by
  have hfilter : cs.filter (fun y => y ≠ x) = cs := by
    rw [List.filter_eq_self]
    intro a ha
    have : a ≠ x := fun h => hx (h ▸ ha)
    simpa using this
  have hupd : Function.update s c (.Composite p (cs.filter (fun y => y ≠ x))) = s := by
    rw [hfilter, ← hc]; exact Function.update_eq_self c s
  refine ⟨SetParent s x none, ?_, rfl, fun r => SetParent_children s x none r,
    fun y hy => SetParent_other s x none y hy, by simp [GetParent], ?_⟩
  · rw [Remove_Composite s c x p cs hc, hupd]
  · constructor
    · intro h
      have hx' := congrFun h x
      rw [SetParent_same] at hx'
      exact ((assignParent_eq_self (s x) none).1 hx')
    · intro h
      funext y
      by_cases hy : y = x
      · subst hy
        rw [SetParent_same]
        exact (assignParent_eq_self (s y) none).2 h
      · exact SetParent_other s x none y hy

/-- Witness of C5, amended: the leaf `0`, whose parent is the composite `4`, is
removed from the composite `3`, which has the leaf `1` as its only child. -/
theorem Remove_absent_witness :
    ∃ s', Remove (SetParent (Function.update fresh 3 (.Composite none [1])) 0 (some 4)) 3
        (some 0) = some s' ∧
      s' = SetParent (SetParent (Function.update fresh 3 (.Composite none [1])) 0 (some 4)) 0
        none ∧
      (∀ r, (s' r).children_
        = (SetParent (Function.update fresh 3 (.Composite none [1])) 0 (some 4) r).children_) ∧
      (∀ y, y ≠ 0 →
        s' y = SetParent (Function.update fresh 3 (.Composite none [1])) 0 (some 4) y) ∧
      GetParent s' 0 = none ∧
      (s' = SetParent (Function.update fresh 3 (.Composite none [1])) 0 (some 4) ↔
        GetParent (SetParent (Function.update fresh 3 (.Composite none [1])) 0 (some 4)) 0
          = none) :=
  Remove_absent (SetParent (Function.update fresh 3 (.Composite none [1])) 0 (some 4)) 3 0 none
    [1] (by decide) (by decide)

/-! ## The members of `Component` that `Leaf` inherits -/

/-- C6: on a leaf, `Add(x)` and `Remove(x)` return and leave the whole store as
it is, for every argument `x` (a component or `nullptr`): every parent
back-reference and every child sequence is the same after the call as before;
`Operation()` on the leaf still returns `"Leaf"` and `IsComposite()` still
returns `false`. -/
theorem Leaf_Add_Remove_noop (s : Heap) (l : Ref) (p : Option Ref) (x : Option Ref)
    (hl : s l = .Leaf p) :
    Add s l x = some s ∧ Remove s l x = some s ∧
      (∀ fuel, Operation s (fuel + 1) l = some "Leaf") ∧
      IsComposite s l = false := by
  refine ⟨by simp [Add, hl], by simp [Remove, hl], ?_, by simp [IsComposite, hl]⟩
  intro fuel
  simp [Operation, hl]

/-- Witness of C6: the leaf `1` is added to and removed from the leaf `0`. -/
theorem Leaf_Add_Remove_noop_witness :
    Add fresh 0 (some 1) = some fresh ∧ Remove fresh 0 (some 1) = some fresh ∧
      (∀ fuel, Operation fresh (fuel + 1) 0 = some "Leaf") ∧
      IsComposite fresh 0 = false :=
  Leaf_Add_Remove_noop fresh 0 none (some 1) (by decide)

/-! ## `Component::SetParent` and `Component::GetParent` -/

/-- C7: after `x.SetParent(p)`, with `p` a component or `nullptr`,
`x.GetParent()` returns `p`; every child sequence (of the old parent of `x` and
of `p` as of any other object) is unchanged, no object changes its class, and
every object other than `x` is unchanged, its parent back-reference included. -/
theorem SetParent_frame (s : Heap) (x : Ref) (p : Option Ref) :
    GetParent (SetParent s x p) x = p ∧
      (∀ r, (SetParent s x p r).children_ = (s r).children_) ∧
      (∀ r, IsComposite (SetParent s x p) r = IsComposite s r) ∧
      (∀ y, y ≠ x → SetParent s x p y = s y ∧ GetParent (SetParent s x p) y = GetParent s y) := by
  refine ⟨by simp [GetParent], fun r => SetParent_children s x p r, ?_, ?_⟩
  · intro r
    exact SetParent_IsComposite s x p r
  · intro y hy
    simp only [GetParent, SetParent_other s x p y hy, and_self]

/-! ## The class of an object never changes -/

theorem Add_IsComposite (s s' : Heap) (c : Ref) (x : Option Ref) (h : Add s c x = some s')
    (r : Ref) : IsComposite s' r = IsComposite s r := by
  unfold Add at h
  split at h
  · cases h; rfl
  · rename_i p cs hc
    cases x with
    | none => simp at h
    | some x =>
      simp only [Option.some.injEq] at h
      subst h
      rw [SetParent_IsComposite, update_children_IsComposite s c p cs _ hc]

theorem Remove_IsComposite (s s' : Heap) (c : Ref) (x : Option Ref)
    (h : Remove s c x = some s') (r : Ref) : IsComposite s' r = IsComposite s r := by
  unfold Remove at h
  split at h
  · cases h; rfl
  · rename_i p cs hc
    cases x with
    | none => simp at h
    | some x =>
      simp only [Option.some.injEq] at h
      subst h
      rw [SetParent_IsComposite, update_children_IsComposite s c p cs _ hc]

theorem exec_IsComposite (fuel : Nat) (s s' : Heap) (call : Call)
    (h : exec fuel s call = some s') (r : Ref) : IsComposite s' r = IsComposite s r := by
  cases call with
  | SetParent self parent =>
    simp only [exec, Option.some.injEq] at h
    subst h
    exact SetParent_IsComposite s self parent r
  | Add self component => exact Add_IsComposite s s' self component h r
  | Remove self component => exact Remove_IsComposite s s' self component h r
  | Operation self =>
    simp only [exec] at h
    split at h
    · simp at h
    · cases h; rfl

theorem run_IsComposite (fuel : Nat) (calls : List Call) :
    ∀ (s s' : Heap), run fuel s calls = some s' → ∀ r, IsComposite s' r = IsComposite s r := by
  induction calls with
  | nil =>
    intro s s' h r
    simp only [run, Option.some.injEq] at h
    subst h; rfl
  | cons call rest ih =>
    intro s s' h r
    simp only [run] at h
    split at h
    · simp at h
    · rename_i s1 h1
      rw [ih s1 s' h r, exec_IsComposite fuel s s1 call h1 r]

theorem Operation_of_not_IsComposite (s : Heap) (l : Ref) (h : IsComposite s l = false)
    (n : Nat) : Operation s (n + 1) l = some "Leaf" := by
  unfold IsComposite at h
  unfold Operation
  split at h
  · rename_i p hl; simp [hl]
  · simp at h

/-! ## `Leaf::Operation` and `IsComposite` in every state -/

/-- C8: on a leaf, `Operation()` returns `"Leaf"`, whatever its parent
back-reference is, in the present state and in every state reached from it by
a sequence of `SetParent`, `Add`, `Remove` and `Operation` calls on any
receivers with any arguments. -/
theorem Leaf_Operation (s : Heap) (l : Ref) (p : Option Ref) (hl : s l = .Leaf p)
    (fuel : Nat) (calls : List Call) (s' : Heap) (hrun : run fuel s calls = some s') :
    (∀ n, Operation s (n + 1) l = some "Leaf") ∧
      (∀ n, Operation s' (n + 1) l = some "Leaf") := by
  have h0 : IsComposite s l = false := by simp [IsComposite, hl]
  have h1 : IsComposite s' l = false := by rw [run_IsComposite fuel calls s s' hrun l, h0]
  exact ⟨Operation_of_not_IsComposite s l h0, Operation_of_not_IsComposite s' l h1⟩

/-- Witness of C8: the leaf `0` is added to the composite `3`, given the parent
`4`, `3.Operation()` is called, `0` is removed from `3`, and `0.Add(1)` and
`0.Operation()` are called. -/
theorem Leaf_Operation_witness :
    ∃ s', run 2 fresh [.Add 3 (some 0), .SetParent 0 (some 4), .Operation 3,
        .Remove 3 (some 0), .Add 0 (some 1), .Operation 0] = some s' ∧
      (∀ n, Operation fresh (n + 1) 0 = some "Leaf") ∧
      (∀ n, Operation s' (n + 1) 0 = some "Leaf") :=
  ⟨_, rfl, Leaf_Operation fresh 0 none (by decide) 2 [.Add 3 (some 0), .SetParent 0 (some 4),
    .Operation 3, .Remove 3 (some 0), .Add 0 (some 1), .Operation 0] _ rfl⟩

/-- C10: `IsComposite()` returns `false` on every leaf and `true` on every
composite, whatever the parent back-reference and the child sequence are (the
empty one included), in the present state and in every state reached from it by
a sequence of `SetParent`, `Add`, `Remove` and `Operation` calls. -/
theorem IsComposite_by_class (s : Heap) (r : Ref) (fuel : Nat) (calls : List Call) (s' : Heap)
    (hrun : run fuel s calls = some s') :
    (∀ p, s r = .Leaf p → IsComposite s r = false ∧ IsComposite s' r = false) ∧
      (∀ p cs, s r = .Composite p cs → IsComposite s r = true ∧ IsComposite s' r = true) := by
  have hk := run_IsComposite fuel calls s s' hrun r
  constructor
  · intro p hl
    have h0 : IsComposite s r = false := by simp [IsComposite, hl]
    exact ⟨h0, by rw [hk, h0]⟩
  · intro p cs hc
    have h0 : IsComposite s r = true := by simp [IsComposite, hc]
    exact ⟨h0, by rw [hk, h0]⟩

/-- Witness of C10: the composite `3`, empty at first, goes through `Add`,
`SetParent`, `Operation` and `Remove` calls. -/
theorem IsComposite_by_class_witness :
    ∃ s', run 2 fresh [.Add 3 (some 0), .SetParent 3 (some 4), .Operation 3,
        .Remove 3 (some 0)] = some s' ∧
      (∀ p, fresh 3 = .Leaf p → IsComposite fresh 3 = false ∧ IsComposite s' 3 = false) ∧
      (∀ p cs, fresh 3 = .Composite p cs →
        IsComposite fresh 3 = true ∧ IsComposite s' 3 = true) :=
  ⟨_, rfl, IsComposite_by_class fresh 3 2 [.Add 3 (some 0), .SetParent 3 (some 4),
    .Operation 3, .Remove 3 (some 0)] _ rfl⟩

/-! ## `Composite::Operation` -/

theorem ne_of_classes (s : Heap) (l c : Ref) (p q : Option Ref) (cs : List Ref)
    (hl : s l = .Leaf p) (hc : s c = .Composite q cs) : l ≠ c := by
  intro h
  subst h
  rw [hl] at hc
  cases hc

theorem Operation_same_leaf_twice (s : Heap) (c x : Ref) (p q : Option Ref)
    (hc : s c = .Composite p [x, x]) (hx : s x = .Leaf q) :
    (∀ n, Operation s (n + 2) c = some "Branch(LeafLeaf)") ∧
      (∀ fuel, Operation s fuel c ≠ some "Branch(Leaf+Leaf)") := by
  have hrun : ∀ n, Operation s (n + 2) c = some "Branch(LeafLeaf)" := by
    intro n
    simp [Operation, OperationLoop, hc, hx]
  refine ⟨hrun, ?_⟩
  intro fuel
  match fuel with
  | 0 => simp [Operation]
  | 1 => simp [Operation, OperationLoop, hc]
  | n + 2 => rw [hrun n]; decide

/-- C1, the value of the code at the failing input: the leaf `0` is added
twice to the empty composite `3`, so that the child sequence of `3` is `0, 0`.
`Operation()` on the child returns `"Leaf"`, the two results joined with `"+"`
and wrapped are `"Branch(Leaf+Leaf)"`, and `Operation()` on `3` returns
`"Branch(LeafLeaf)"`: the loop leaves the separator out after every child that
is the same object as the last child, whatever its position. -/
theorem Operation_repeated_child :
    ∃ s, run 0 fresh [.Add 3 (some 0), .Add 3 (some 0)] = some s ∧
      (s 3).children_ = [0, 0] ∧
      (∀ n, Operation s (n + 1) 0 = some "Leaf") ∧
      "Branch(" ++ joinPlus ["Leaf", "Leaf"] ++ ")" = "Branch(Leaf+Leaf)" ∧
      (∀ n, Operation s (n + 2) 3 = some "Branch(LeafLeaf)") ∧
      (∀ fuel, Operation s fuel 3 ≠ some "Branch(Leaf+Leaf)") :=
  ⟨_, rfl, by decide,
    Operation_of_not_IsComposite _ 0 (by decide), by decide,
    Operation_same_leaf_twice _ 3 0 none (some 3) (by decide) (by decide)⟩

/-! ## The client of src/composite.cpp -/

/-- C9: from freshly constructed objects, three distinct leaves `leaf_1`,
`leaf_2`, `leaf_3` and three distinct composites `tree`, `branch1`, `branch2`,
the calls `branch1.Add(leaf_1)`, `branch1.Add(leaf_2)`, `branch2.Add(leaf_3)`,
`tree.Add(branch1)`, `tree.Add(branch2)` all return, and in the state they lead
to `tree.Operation()` returns `"Branch(Branch(Leaf+Leaf)+Branch(Leaf))"` (with
a call chain of depth three) and `branch1.Operation()` returns
`"Branch(Leaf+Leaf)"` (with a call chain of depth two). -/
theorem scenario_tree (s : Heap) (leaf_1 leaf_2 leaf_3 tree branch1 branch2 : Ref)
    (h1 : s leaf_1 = .Leaf none) (h2 : s leaf_2 = .Leaf none) (h3 : s leaf_3 = .Leaf none)
    (ht : s tree = .Composite none []) (hb1 : s branch1 = .Composite none [])
    (hb2 : s branch2 = .Composite none [])
    (h12 : leaf_1 ≠ leaf_2) (h13 : leaf_1 ≠ leaf_3) (h23 : leaf_2 ≠ leaf_3)
    (htb1 : tree ≠ branch1) (htb2 : tree ≠ branch2) (hb12 : branch1 ≠ branch2) (fuel : Nat) :
    ∃ s', run fuel s [.Add branch1 (some leaf_1), .Add branch1 (some leaf_2),
        .Add branch2 (some leaf_3), .Add tree (some branch1), .Add tree (some branch2)]
        = some s' ∧
      (∀ n, Operation s' (n + 3) tree = some "Branch(Branch(Leaf+Leaf)+Branch(Leaf))") ∧
      (∀ n, Operation s' (n + 2) branch1 = some "Branch(Leaf+Leaf)") := by
  have n1t := ne_of_classes s leaf_1 tree _ _ _ h1 ht
  have n1a := ne_of_classes s leaf_1 branch1 _ _ _ h1 hb1
  have n1b := ne_of_classes s leaf_1 branch2 _ _ _ h1 hb2
  have n2t := ne_of_classes s leaf_2 tree _ _ _ h2 ht
  have n2a := ne_of_classes s leaf_2 branch1 _ _ _ h2 hb1
  have n2b := ne_of_classes s leaf_2 branch2 _ _ _ h2 hb2
  have n3t := ne_of_classes s leaf_3 tree _ _ _ h3 ht
  have n3a := ne_of_classes s leaf_3 branch1 _ _ _ h3 hb1
  have n3b := ne_of_classes s leaf_3 branch2 _ _ _ h3 hb2
  simp [run, exec, Add, SetParent, Function.update_apply, h1, h2, h3, ht, hb1, hb2,
    h12, h13, h23, htb1, htb2, hb12, n1t, n1a, n1b, n2t, n2a, n2b, n3t, n3a, n3b,
    h12.symm, h13.symm, h23.symm, htb1.symm, htb2.symm, hb12.symm, n1t.symm, n1a.symm, n1b.symm,
    n2t.symm, n2a.symm, n2b.symm, n3t.symm, n3a.symm, n3b.symm,
    Component.assignParent, Operation, OperationLoop]

/-- Witness of C9: the leaves are `0`, `1`, `2`, the root is `3` and the
branches are `4` and `5`. -/
theorem scenario_tree_witness :
    ∃ s', run 0 fresh [.Add 4 (some 0), .Add 4 (some 1), .Add 5 (some 2), .Add 3 (some 4),
        .Add 3 (some 5)] = some s' ∧
      (∀ n, Operation s' (n + 3) 3 = some "Branch(Branch(Leaf+Leaf)+Branch(Leaf))") ∧
      (∀ n, Operation s' (n + 2) 4 = some "Branch(Leaf+Leaf)") :=
  scenario_tree fresh 0 1 2 3 4 5 (by decide) (by decide) (by decide) (by decide) (by decide)
    (by decide) (by decide) (by decide) (by decide) (by decide) (by decide) (by decide) 0

/-! ## Which calls write a parent back-reference -/

theorem update_children_parent (s : Heap) (c : Ref) (p : Option Ref) (cs cs' : List Ref)
    (hc : s c = .Composite p cs) (y : Ref) :
    (Function.update s c (.Composite p cs') y).parent = (s y).parent := by
  by_cases h : y = c
  · subst h
    simp [Component.parent, hc]
  · rw [Function.update_noteq h]

theorem update_children_other (s : Heap) (c : Ref) (o : Component) (a : Ref) (h : a ≠ c) :
    (Function.update s c o a).children_ = (s a).children_ := by
  rw [Function.update_noteq h]

theorem SetParent_GetParent_other (s : Heap) (x : Ref) (p : Option Ref) (y : Ref)
    (h : y ≠ x) : GetParent (SetParent s x p) y = GetParent s y := by
  simp only [GetParent, SetParent_other s x p y h]

theorem Add_GetParent_other (s s' : Heap) (c : Ref) (component : Option Ref) (y : Ref)
    (h : Add s c component = some s') (hy : component ≠ some y) :
    GetParent s' y = GetParent s y := by
  unfold Add at h
  split at h
  · cases h; rfl
  · rename_i p cs hc
    cases component with
    | none => simp at h
    | some x =>
      simp only [Option.some.injEq] at h
      subst h
      have hyx : y ≠ x := fun e => hy (by rw [e])
      rw [SetParent_GetParent_other _ x _ y hyx]
      exact update_children_parent s c p cs _ hc y

theorem Remove_GetParent_other (s s' : Heap) (c : Ref) (component : Option Ref) (y : Ref)
    (h : Remove s c component = some s') (hy : component ≠ some y) :
    GetParent s' y = GetParent s y := by
  unfold Remove at h
  split at h
  · cases h; rfl
  · rename_i p cs hc
    cases component with
    | none => simp at h
    | some x =>
      simp only [Option.some.injEq] at h
      subst h
      have hyx : y ≠ x := fun e => hy (by rw [e])
      rw [SetParent_GetParent_other _ x _ y hyx]
      exact update_children_parent s c p cs _ hc y

theorem exec_GetParent_of_not_reassigns (fuel : Nat) (s s' : Heap) (call : Call) (x : Ref)
    (h : exec fuel s call = some s') (hx : call.reassigns x = false) :
    GetParent s' x = GetParent s x := by
  cases call with
  | SetParent self parent =>
    simp only [exec, Option.some.injEq] at h
    subst h
    have hne : x ≠ self := by
      intro e
      simp [Call.reassigns, e] at hx
    exact SetParent_GetParent_other s self parent x hne
  | Add self component =>
    exact Add_GetParent_other s s' self component x h (by simpa [Call.reassigns] using hx)
  | Remove self component =>
    exact Remove_GetParent_other s s' self component x h (by simpa [Call.reassigns] using hx)
  | Operation self =>
    simp only [exec] at h
    split at h
    · simp at h
    · cases h; rfl

theorem run_GetParent_of_not_reassigns (fuel : Nat) (x : Ref) (calls : List Call) :
    ∀ (s s' : Heap), run fuel s calls = some s' →
      (∀ call ∈ calls, call.reassigns x = false) → GetParent s' x = GetParent s x := by
  induction calls with
  | nil =>
    intro s s' h _
    simp only [run, Option.some.injEq] at h
    subst h; rfl
  | cons call rest ih =>
    intro s s' h hx
    simp only [run] at h
    split at h
    · simp at h
    · rename_i s1 h1
      rw [ih s1 s' h (fun c hc => hx c (List.mem_cons_of_mem _ hc)),
        exec_GetParent_of_not_reassigns fuel s s1 call x h1 (hx call (List.mem_cons_self _ _))]

/-- C11: once `c.Add(x)` has been called on a composite `c`, the parent
back-reference of `x` identifies `c` in the state the call leads to and in
every state reached from there by a finite sequence of `Add`, `Remove`,
`SetParent` and `Operation` calls on any receivers, provided none of them is
an `Add` or a `Remove` with `x` as its argument or a `SetParent` with `x` as its
receiver. -/
theorem Add_parent_stable (s : Heap) (c x : Ref) (p : Option Ref) (cs : List Ref)
    (hc : s c = .Composite p cs) (s1 : Heap) (hadd : Add s c (some x) = some s1)
    (fuel : Nat) (calls : List Call) (s' : Heap) (hrun : run fuel s1 calls = some s')
    (hcalls : ∀ call ∈ calls, call.reassigns x = false) :
    GetParent s1 x = some c ∧ GetParent s' x = some c := by
  have h1 : GetParent s1 x = some c := by
    rw [Add_Composite s c x p cs hc] at hadd
    simp only [Option.some.injEq] at hadd
    subst hadd
    simp [GetParent]
  exact ⟨h1, by rw [run_GetParent_of_not_reassigns fuel x calls s1 s' hrun hcalls, h1]⟩

/-- Witness of C11: the leaf `0` is added to the composite `4`; then `4` gets
another child and a parent, `0.Add(1)` is called on the leaf, `1` is removed
from `4` and `3.Operation()` is called. -/
theorem Add_parent_stable_witness :
    ∃ s1 s', Add fresh 4 (some 0) = some s1 ∧
      run 3 s1 [.Add 4 (some 1), .Add 3 (some 4), .Add 0 (some 1), .SetParent 1 (some 0),
        .Remove 4 (some 1), .Operation 3] = some s' ∧
      GetParent s1 0 = some 4 ∧ GetParent s' 0 = some 4 :=
  ⟨_, _, rfl, rfl, Add_parent_stable fresh 4 0 none [] (by decide) _ rfl 3
    [.Add 4 (some 1), .Add 3 (some 4), .Add 0 (some 1), .SetParent 1 (some 0),
      .Remove 4 (some 1), .Operation 3] _ rfl (by decide)⟩

/-! ## The policy of `Composite::Remove` on repeated children -/

theorem length_filter_ne_add_count (x : Ref) (cs : List Ref) :
    (cs.filter (fun y => y ≠ x)).length + cs.count x = cs.length := by
  induction cs with
  | nil => rfl
  | cons a rest ih =>
    by_cases h : a = x
    · subst h
      simp only [List.filter_cons, ne_eq, not_true_eq_false, decide_False, Bool.false_eq_true,
        if_false, List.count_cons_self, List.length_cons]
      simp only [ne_eq] at ih
      omega
    · simp only [List.filter_cons, ne_eq, h, not_false_eq_true, decide_True, if_true,
        List.length_cons, List.count_cons_of_ne (Ne.symm h)]
      simp only [ne_eq] at ih
      omega

theorem count_filter_ne (x y : Ref) (h : y ≠ x) (cs : List Ref) :
    (cs.filter (fun z => z ≠ x)).count y = cs.count y := by
  induction cs with
  | nil => rfl
  | cons a rest ih =>
    by_cases ha : a = x
    · subst ha
      simp only [List.filter_cons, ne_eq, not_true_eq_false, decide_False,
        Bool.false_eq_true, if_false, List.count_cons_of_ne h]
      simp only [ne_eq] at ih
      exact ih
    · simp only [List.filter_cons, ne_eq, ha, not_false_eq_true, decide_True, if_true,
        List.count_cons]
      simp only [ne_eq] at ih
      rw [ih]

/-- C15: on a composite `c` whose child sequence is `cs`, `c.Remove(x)` with `x`
a component returns, and the child sequence of `c` is then `cs` with every
occurrence of `x` deleted: `x` does not occur in it, the other children are
there as often as before and in their previous relative order, and the length
has dropped by the number of occurrences `x` had. -/
theorem Remove_erases_all (s : Heap) (c x : Ref) (p : Option Ref) (cs : List Ref)
    (hc : s c = .Composite p cs) :
    ∃ s', Remove s c (some x) = some s' ∧
      (s' c).children_ = cs.filter (fun y => y ≠ x) ∧
      x ∉ (s' c).children_ ∧
      (s' c).children_.Sublist cs ∧
      (∀ y, y ≠ x → (s' c).children_.count y = cs.count y) ∧
      (s' c).children_.length + cs.count x = cs.length := by
  have hch : (SetParent (Function.update s c (.Composite p (cs.filter (fun y => y ≠ x)))) x
      none c).children_ = cs.filter (fun y => y ≠ x) := by
    rw [SetParent_children, Function.update_same]; rfl
  refine ⟨_, Remove_Composite s c x p cs hc, hch, ?_, ?_, ?_, ?_⟩
  · rw [hch]
    intro hmem
    have := (List.mem_filter.1 hmem).2
    simp at this
  · rw [hch]
    exact List.filter_sublist cs
  · intro y hy
    rw [hch]
    exact count_filter_ne x y hy cs
  · rw [hch]
    exact length_filter_ne_add_count x cs

/-- Witness of C15: the composite `3` has the children `0, 1, 0, 2`, and `0` is
removed. -/
theorem Remove_erases_all_witness :
    ∃ s', Remove (Function.update fresh 3 (.Composite none [0, 1, 0, 2])) 3 (some 0) = some s' ∧
      (s' 3).children_ = [1, 2] ∧
      0 ∉ (s' 3).children_ ∧
      (s' 3).children_.Sublist [0, 1, 0, 2] ∧
      (∀ y, y ≠ 0 → (s' 3).children_.count y = [0, 1, 0, 2].count y) ∧
      (s' 3).children_.length + 2 = 4 :=
  Remove_erases_all (Function.update fresh 3 (.Composite none [0, 1, 0, 2])) 3 0 none
    [0, 1, 0, 2] (by decide)

/-! ## What `Composite::Add` leaves alone -/

/-- C17: on a composite `b`, `b.Add(x)` with `x` a component returns; the child
sequence of every object other than `b` and the parent back-reference of every
object other than `x` are unchanged, and no object changes its class.  A
component `x` that is a child of another composite `a` stays in the child
sequence of `a`, while its parent back-reference identifies `b`. -/
theorem Add_frame (s : Heap) (b x : Ref) (p : Option Ref) (cs : List Ref)
    (hb : s b = .Composite p cs) :
    ∃ s', Add s b (some x) = some s' ∧
      (∀ a, a ≠ b → (s' a).children_ = (s a).children_) ∧
      (∀ y, y ≠ x → GetParent s' y = GetParent s y) ∧
      (∀ r, IsComposite s' r = IsComposite s r) ∧
      (∀ a, a ≠ b → x ∈ (s a).children_ →
        x ∈ (s' a).children_ ∧ GetParent s' x = some b) := by
  have hadd := Add_Composite s b x p cs hb
  have hch : ∀ a, a ≠ b →
      (SetParent (Function.update s b (.Composite p (cs ++ [x]))) x (some b) a).children_
        = (s a).children_ := by
    intro a ha
    rw [SetParent_children, update_children_other s b _ a ha]
  refine ⟨_, hadd, hch, ?_, ?_, ?_⟩
  · intro y hy
    exact Add_GetParent_other s _ b (some x) y hadd (fun e => hy (Option.some.inj e).symm)
  · intro r
    exact Add_IsComposite s _ b (some x) hadd r
  · intro a ha hmem
    refine ⟨by rw [hch a ha]; exact hmem, ?_⟩
    simp [GetParent]

/-- Witness of C17: the leaf `0` is a child of the composite `4` and is added
to the composite `3`. -/
theorem Add_frame_witness :
    ∃ s', Add (SetParent (Function.update fresh 4 (.Composite none [0])) 0 (some 4)) 3 (some 0)
        = some s' ∧
      (∀ a, a ≠ 3 → (s' a).children_
        = (SetParent (Function.update fresh 4 (.Composite none [0])) 0 (some 4) a).children_) ∧
      (∀ y, y ≠ 0 → GetParent s' y
        = GetParent (SetParent (Function.update fresh 4 (.Composite none [0])) 0 (some 4)) y) ∧
      (∀ r, IsComposite s' r
        = IsComposite (SetParent (Function.update fresh 4 (.Composite none [0])) 0 (some 4)) r) ∧
      (∀ a, a ≠ 3 →
        0 ∈ (SetParent (Function.update fresh 4 (.Composite none [0])) 0 (some 4) a).children_ →
        0 ∈ (s' a).children_ ∧ GetParent s' 0 = some 3) :=
  Add_frame (SetParent (Function.update fresh 4 (.Composite none [0])) 0 (some 4)) 3 0 none []
    (by decide)

/-! ## `Add` followed by `Remove` -/

theorem assignParent_assignParent (o : Component) (p q : Option Ref) :
    (o.assignParent p).assignParent q = o.assignParent q := by
  cases o <;> rfl

theorem filter_ne_append_self (x : Ref) (cs : List Ref) (hx : x ∉ cs) :
    (cs ++ [x]).filter (fun y => y ≠ x) = cs := by
  have h1 : cs.filter (fun y => y ≠ x) = cs := by
    rw [List.filter_eq_self]
    intro a ha
    have : a ≠ x := fun h => hx (h ▸ ha)
    simpa using this
  rw [List.filter_append, h1]
  simp

/-- C18: on a composite `c` in whose child sequence the component `x` does not
occur, and with the parent back-reference of `x` absent, `c.Add(x)` followed by
`c.Remove(x)` both return and lead back to the state before the two calls:
every child sequence and every parent back-reference is restored, hence
`Operation()` behaves on every object as before, at every call depth. -/
theorem Add_Remove_undo (s : Heap) (c x : Ref) (p : Option Ref) (cs : List Ref)
    (hc : s c = .Composite p cs) (hx : x ∉ cs) (hp : GetParent s x = none) :
    ∃ s1 s2, Add s c (some x) = some s1 ∧ Remove s1 c (some x) = some s2 ∧ s2 = s ∧
      (∀ fuel r, Operation s2 fuel r = Operation s fuel r) := by
  have hself : (s x).assignParent none = s x := (assignParent_eq_self (s x) none).2 hp
  have key : ∃ s2, Remove (SetParent (Function.update s c (.Composite p (cs ++ [x]))) x (some c))
      c (some x) = some s2 ∧ s2 = s := by
    by_cases hxc : x = c
    · subst hxc
      have hpn : p = none := by
        have := hp
        simp only [GetParent, hc, Component.parent] at this
        exact this
      have h1 : SetParent (Function.update s x (.Composite p (cs ++ [x]))) x (some x) x
          = .Composite (some x) (cs ++ [x]) := by
        rw [SetParent_same, Function.update_same]; rfl
      refine ⟨_, Remove_Composite _ x x (some x) (cs ++ [x]) h1, ?_⟩
      funext r
      by_cases hr : r = x
      · subst hr
        rw [SetParent_same, Function.update_same, filter_ne_append_self r cs hx, hc, hpn]
        rfl
      · rw [SetParent_other _ x none r hr, Function.update_noteq hr,
          SetParent_other _ x (some x) r hr, Function.update_noteq hr]
    · have hcx : c ≠ x := fun e => hxc e.symm
      have h1 : SetParent (Function.update s c (.Composite p (cs ++ [x]))) x (some c) c
          = .Composite p (cs ++ [x]) := by
        rw [SetParent_other _ x (some c) c hcx, Function.update_same]
      refine ⟨_, Remove_Composite _ c x p (cs ++ [x]) h1, ?_⟩
      funext r
      by_cases hr : r = x
      · subst hr
        rw [SetParent_same, Function.update_noteq hxc, SetParent_same,
          Function.update_noteq hxc, assignParent_assignParent, hself]
      · rw [SetParent_other _ x none r hr]
        by_cases hrc : r = c
        · subst hrc
          rw [Function.update_same, filter_ne_append_self x cs hx, hc]
        · rw [Function.update_noteq hrc, SetParent_other _ x (some c) r hr,
            Function.update_noteq hrc]
  obtain ⟨s2, hrem, heq⟩ := key
  exact ⟨_, s2, Add_Composite s c x p cs hc, hrem, heq, fun fuel r => by rw [heq]⟩

/-- Witness of C18: the fresh leaf `1` is added to and removed from the
composite `3`, whose only child is the leaf `0`. -/
theorem Add_Remove_undo_witness :
    ∃ s1 s2, Add (Function.update fresh 3 (.Composite none [0])) 3 (some 1) = some s1 ∧
      Remove s1 3 (some 1) = some s2 ∧ s2 = Function.update fresh 3 (.Composite none [0]) ∧
      (∀ fuel r, Operation s2 fuel r
        = Operation (Function.update fresh 3 (.Composite none [0])) fuel r) :=
  Add_Remove_undo (Function.update fresh 3 (.Composite none [0])) 3 1 none [0] (by decide)
    (by decide) (by decide)

/-! ## The separator rule of `Composite::Operation` -/

theorem OperationLoop_eq (call : Ref → Option String) (back : Option Ref) (f : Ref → String) :
    ∀ (cs : List Ref) (acc : String), (∀ c ∈ cs, call c = some (f c)) →
      OperationLoop call back cs acc
        = some (acc ++ concatAll (cs.map (pieceByIdentity back f))) := by
  intro cs
  induction cs with
  | nil =>
    intro acc _
    simp [OperationLoop, concatAll]
  | cons c rest ih =>
    intro acc h
    have hc : call c = some (f c) := h c (List.mem_cons_self _ _)
    have hrest : ∀ d ∈ rest, call d = some (f d) := fun d hd => h d (List.mem_cons_of_mem _ hd)
    by_cases hb : some c = back
    · simp only [OperationLoop, hb, if_true, hc, List.map_cons, concatAll, pieceByIdentity]
      rw [ih _ hrest, String.append_assoc]
    · simp only [OperationLoop, hb, if_false, hc, List.map_cons, concatAll, pieceByIdentity]
      rw [ih _ hrest, String.append_assoc]

theorem joinPlus_cons_of_ne_nil (r : String) (l : List String) (h : l ≠ []) :
    joinPlus (r :: l) = r ++ "+" ++ joinPlus l := by
  cases l with
  | nil => exact absurd rfl h
  | cons a rest => rfl

theorem concatAll_eq_joinPlus (f : Ref → String) (last : Ref) :
    ∀ (init : List Ref), last ∉ init →
      concatAll ((init ++ [last]).map (pieceByIdentity (some last) f))
        = joinPlus ((init ++ [last]).map f) := by
  intro init
  induction init with
  | nil =>
    intro _
    simp [concatAll, joinPlus, pieceByIdentity]
  | cons a rest ih =>
    intro h
    have ha : a ≠ last := fun e => h (by rw [e]; exact List.mem_cons_self _ _)
    have hrest : last ∉ rest := fun e => h (List.mem_cons_of_mem _ e)
    have hne : (rest ++ [last]).map f ≠ [] := by simp
    have hpa : pieceByIdentity (some last) f a = f a ++ "+" := by
      simp [pieceByIdentity, ha]
    rw [List.cons_append, List.map_cons, List.map_cons, joinPlus_cons_of_ne_nil _ _ hne,
      concatAll, ih hrest, hpa]

theorem Operation_Composite_eq (s : Heap) (c : Ref) (p : Option Ref) (cs : List Ref)
    (fuel : Nat) (f : Ref → String) (hc : s c = .Composite p cs)
    (hf : ∀ ci ∈ cs, Operation s fuel ci = some (f ci)) :
    Operation s (fuel + 1) c
      = some ("Branch(" ++ concatAll (cs.map (pieceByIdentity cs.getLast? f)) ++ ")") := by
  simp only [Operation, hc, OperationLoop_eq (Operation s fuel) cs.getLast? f cs "" hf,
    String.empty_append]

theorem Operation_Composite_join (s : Heap) (c : Ref) (p : Option Ref) (init : List Ref)
    (last : Ref) (fuel : Nat) (f : Ref → String) (hc : s c = .Composite p (init ++ [last]))
    (hf : ∀ ci ∈ init ++ [last], Operation s fuel ci = some (f ci)) (hlast : last ∉ init) :
    Operation s (fuel + 1) c
      = some ("Branch(" ++ joinPlus ((init ++ [last]).map f) ++ ")") := by
  rw [Operation_Composite_eq s c p _ fuel f hc hf, List.getLast?_concat,
    concatAll_eq_joinPlus f last init hlast]

/-- C14: on a composite `c` with the children `cs`, each child `ci` returning
`f ci` from `Operation()`, `c.Operation()` returns (with one more level of call
depth) `"Branch("`, then for each child in order its result, followed by `"+"`
exactly when the child is not the same object as the last child, then `")"`.
So whenever the last child occurs at no earlier position, in particular when
the children are pairwise distinct, the result is `"Branch("`, the results
joined with single `"+"`, and `")"`. -/
theorem Operation_separator_by_identity (s : Heap) (c : Ref) (p : Option Ref)
    (cs : List Ref) (fuel : Nat) (f : Ref → String) (hc : s c = .Composite p cs)
    (hf : ∀ ci ∈ cs, Operation s fuel ci = some (f ci)) :
    Operation s (fuel + 1) c
        = some ("Branch(" ++ concatAll (cs.map
            (fun ci => if some ci = cs.getLast? then f ci else f ci ++ "+")) ++ ")") ∧
      (∀ init last, cs = init ++ [last] → last ∉ init →
        Operation s (fuel + 1) c = some ("Branch(" ++ joinPlus (cs.map f) ++ ")")) ∧
      (cs.Nodup → Operation s (fuel + 1) c = some ("Branch(" ++ joinPlus (cs.map f) ++ ")")) := by
  have hjoin : ∀ init last, cs = init ++ [last] → last ∉ init →
      Operation s (fuel + 1) c = some ("Branch(" ++ joinPlus (cs.map f) ++ ")") := by
    intro init last hcs hlast
    subst hcs
    exact Operation_Composite_join s c p init last fuel f hc hf hlast
  refine ⟨Operation_Composite_eq s c p cs fuel f hc hf, hjoin, ?_⟩
  intro hnd
  rcases List.eq_nil_or_concat cs with hnil | ⟨init, last, hcs⟩
  · subst hnil
    simp [Operation, hc, OperationLoop, joinPlus]
  · rw [List.concat_eq_append] at hcs
    refine hjoin init last hcs ?_
    rw [hcs] at hnd
    intro hmem
    have := List.nodup_append.1 hnd
    exact this.2.2 hmem (List.mem_singleton_self last)

/-- Witness of C14: the composite `3` has the children `0, 1, 0`, all leaves:
the separator is left out after both occurrences of `0`. -/
theorem Operation_separator_by_identity_witness :
    Operation (Function.update fresh 3 (.Composite none [0, 1, 0])) 2 3
        = some "Branch(LeafLeaf+Leaf)" ∧
      (∀ init last, [0, 1, 0] = init ++ [last] → last ∉ init →
        Operation (Function.update fresh 3 (.Composite none [0, 1, 0])) 2 3
          = some ("Branch(" ++ joinPlus ([0, 1, 0].map (fun _ => "Leaf")) ++ ")")) ∧
      ([0, 1, 0].Nodup →
        Operation (Function.update fresh 3 (.Composite none [0, 1, 0])) 2 3
          = some ("Branch(" ++ joinPlus ([0, 1, 0].map (fun _ => "Leaf")) ++ ")")) :=
  Operation_separator_by_identity (Function.update fresh 3 (.Composite none [0, 1, 0])) 3 none
    [0, 1, 0] 1 (fun _ => "Leaf") (by decide) (by decide)

/-! ## Height of the tree below an object and depth of the `Operation` call chain -/

theorem heightLE_succ_iff (s : Heap) (h : Nat) (n : Ref) :
    heightLE s (h + 1) n = true ↔ ∀ c, Child s n c → heightLE s h c = true := by
  simp only [heightLE, List.all_eq_true, Child]

theorem heightLE_mono_succ (s : Heap) :
    ∀ (h : Nat) (n : Ref), heightLE s h n = true → heightLE s (h + 1) n = true := by
  intro h
  induction h with
  | zero =>
    intro n hn
    simp [heightLE] at hn
  | succ k ih =>
    intro n hn
    rw [heightLE_succ_iff] at hn ⊢
    exact fun c hc => ih c (hn c hc)

theorem heightLE_mono (s : Heap) (n : Ref) (h k : Nat) (hk : h ≤ k)
    (hn : heightLE s h n = true) : heightLE s k n = true := by
  induction hk with
  | refl => exact hn
  | step _ ih => exact heightLE_mono_succ s _ n ih

theorem OperationLoop_some_of_forall (call : Ref → Option String) (back : Option Ref) :
    ∀ (cs : List Ref) (acc : String), (∀ c ∈ cs, ∃ r, call c = some r) →
      ∃ r, OperationLoop call back cs acc = some r := by
  intro cs
  induction cs with
  | nil =>
    intro acc _
    exact ⟨acc, rfl⟩
  | cons c rest ih =>
    intro acc h
    obtain ⟨r, hr⟩ := h c (List.mem_cons_self _ _)
    have hrest : ∀ d ∈ rest, ∃ r, call d = some r :=
      fun d hd => h d (List.mem_cons_of_mem _ hd)
    by_cases hb : some c = back
    · simp only [OperationLoop, hb, if_true, hr]
      exact ih _ hrest
    · simp only [OperationLoop, hb, if_false, hr]
      exact ih _ hrest

theorem OperationLoop_forall_of_some (call : Ref → Option String) (back : Option Ref) :
    ∀ (cs : List Ref) (acc r : String), OperationLoop call back cs acc = some r →
      ∀ c ∈ cs, ∃ r', call c = some r' := by
  intro cs
  induction cs with
  | nil =>
    intro acc r _ c hc
    cases hc
  | cons a rest ih =>
    intro acc r h c hc
    cases hcall : call a with
    | none =>
      by_cases hb : some a = back <;> simp [OperationLoop, hb, hcall] at h
    | some ra =>
      rcases List.mem_cons.1 hc with rfl | hmem
      · exact ⟨ra, hcall⟩
      · by_cases hb : some a = back
        · simp only [OperationLoop, hb, if_true, hcall] at h
          exact ih _ r h c hmem
        · simp only [OperationLoop, hb, if_false, hcall] at h
          exact ih _ r h c hmem

theorem OperationLoop_mono (call call' : Ref → Option String) (back : Option Ref) :
    ∀ (cs : List Ref) (acc r : String), (∀ c ∈ cs, ∀ rc, call c = some rc → call' c = some rc) →
      OperationLoop call back cs acc = some r → OperationLoop call' back cs acc = some r := by
  intro cs
  induction cs with
  | nil =>
    intro acc r _ h
    exact h
  | cons a rest ih =>
    intro acc r hm h
    have hrest : ∀ c ∈ rest, ∀ rc, call c = some rc → call' c = some rc :=
      fun c hc => hm c (List.mem_cons_of_mem _ hc)
    cases hcall : call a with
    | none =>
      by_cases hb : some a = back <;> simp [OperationLoop, hb, hcall] at h
    | some ra =>
      have hcall' := hm a (List.mem_cons_self _ _) ra hcall
      by_cases hb : some a = back
      · simp only [OperationLoop, hb, if_true, hcall] at h
        simp only [OperationLoop, hb, if_true, hcall']
        exact ih _ r hrest h
      · simp only [OperationLoop, hb, if_false, hcall] at h
        simp only [OperationLoop, hb, if_false, hcall']
        exact ih _ r hrest h

theorem Operation_some_of_heightLE (s : Heap) :
    ∀ (h : Nat) (n : Ref), heightLE s h n = true → ∃ r, Operation s h n = some r := by
  intro h
  induction h with
  | zero =>
    intro n hn
    simp [heightLE] at hn
  | succ k ih =>
    intro n hn
    rw [heightLE_succ_iff] at hn
    cases hobj : s n with
    | Leaf p => exact ⟨"Leaf", by simp [Operation, hobj]⟩
    | Composite p cs =>
      have hall : ∀ c ∈ cs, ∃ r, Operation s k c = some r := by
        intro c hc
        exact ih c (hn c (by simp [Child, hobj, Component.children_, hc]))
      obtain ⟨r, hr⟩ := OperationLoop_some_of_forall (Operation s k) cs.getLast? cs "" hall
      exact ⟨"Branch(" ++ r ++ ")", by simp [Operation, hobj, hr]⟩

theorem heightLE_of_Operation_some (s : Heap) :
    ∀ (h : Nat) (n : Ref) (r : String), Operation s h n = some r → heightLE s h n = true := by
  intro h
  induction h with
  | zero =>
    intro n r hr
    simp [Operation] at hr
  | succ k ih =>
    intro n r hr
    rw [heightLE_succ_iff]
    intro c hc
    cases hobj : s n with
    | Leaf p => simp [Child, hobj, Component.children_] at hc
    | Composite p cs =>
      have hmem : c ∈ cs := by simpa [Child, hobj, Component.children_] using hc
      simp only [Operation, hobj] at hr
      cases hloop : OperationLoop (Operation s k) cs.getLast? cs "" with
      | none => simp [hloop] at hr
      | some res =>
        obtain ⟨rc, hrc⟩ :=
          OperationLoop_forall_of_some (Operation s k) cs.getLast? cs "" res hloop c hmem
        exact ih c rc hrc

theorem Operation_mono_succ (s : Heap) :
    ∀ (h : Nat) (n : Ref) (r : String), Operation s h n = some r →
      Operation s (h + 1) n = some r := by
  intro h
  induction h with
  | zero =>
    intro n r hr
    simp [Operation] at hr
  | succ k ih =>
    intro n r hr
    cases hobj : s n with
    | Leaf p =>
      simp only [Operation, hobj] at hr ⊢
      exact hr
    | Composite p cs =>
      simp only [Operation, hobj] at hr
      cases hloop : OperationLoop (Operation s k) cs.getLast? cs "" with
      | none => simp [hloop] at hr
      | some res =>
        have hloop' := OperationLoop_mono (Operation s k) (Operation s (k + 1)) cs.getLast? cs ""
          res (fun c _ rc hrc => ih c rc hrc) hloop
        rw [hloop] at hr
        have hsucc : Operation s (k + 1 + 1) n
            = match OperationLoop (Operation s (k + 1)) cs.getLast? cs "" with
              | none => none
              | some result => some ("Branch(" ++ result ++ ")") := by
          simp only [Operation, hobj]
        rw [hsucc, hloop']
        exact hr

theorem Operation_mono (s : Heap) (n : Ref) (r : String) (h k : Nat) (hk : h ≤ k)
    (hr : Operation s h n = some r) : Operation s k n = some r := by
  induction hk with
  | refl => exact hr
  | step _ ih => exact Operation_mono_succ s _ n r ih

theorem heightLE_Child (s : Heap) (a b : Ref) (hab : Child s a b) (h : Nat)
    (ha : heightLE s h a = true) : ∃ k, k < h ∧ heightLE s k b = true := by
  cases h with
  | zero => simp [heightLE] at ha
  | succ k => exact ⟨k, Nat.lt_succ_self k, (heightLE_succ_iff s k a).1 ha b hab⟩

theorem heightLE_Descendant (s : Heap) (a b : Ref) (hab : Descendant s a b) :
    ∀ h, heightLE s h a = true → ∃ k, k < h ∧ heightLE s k b = true := by
  unfold Descendant at hab
  induction hab with
  | single hc => exact fun h ha => heightLE_Child s a _ hc h ha
  | tail _ hc ih =>
    intro h ha
    obtain ⟨k, hk, hb⟩ := ih h ha
    obtain ⟨j, hj, hd⟩ := heightLE_Child s _ _ hc k hb
    exact ⟨j, Nat.lt_trans hj hk, hd⟩

theorem heightLE_Reach (s : Heap) (n c : Ref) (hnc : Reach s n c) (h : Nat)
    (hn : heightLE s h n = true) : ∃ k, k ≤ h ∧ heightLE s k c = true := by
  unfold Reach at hnc
  induction hnc with
  | refl => exact ⟨h, Nat.le_refl h, hn⟩
  | tail _ hc ih =>
    obtain ⟨k, hk, hb⟩ := ih
    obtain ⟨j, hj, hd⟩ := heightLE_Child s _ _ hc k hb
    exact ⟨j, Nat.le_trans (Nat.le_of_lt hj) hk, hd⟩

theorem not_heightLE_of_cycle (s : Heap) (c : Ref) (hcyc : Descendant s c c) :
    ∀ h, heightLE s h c = false := by
  intro h
  induction h using Nat.strong_induction_on with
  | _ h ih =>
    cases hh : heightLE s h c with
    | false => rfl
    | true =>
      obtain ⟨k, hk, hck⟩ := heightLE_Descendant s c c hcyc h hh
      rw [ih k hk] at hck
      cases hck

theorem Acyclic_of_heightLE (s : Heap) (n : Ref) (h : Nat) (hn : heightLE s h n = true) :
    Acyclic s n := by
  intro c hnc hcyc
  obtain ⟨k, _, hk⟩ := heightLE_Reach s n c hnc h hn
  rw [not_heightLE_of_cycle s c hcyc k] at hk
  cases hk

theorem mem_reachable_self (s : Heap) (h : Nat) (n : Ref) : n ∈ reachable s h n := by
  cases h <;> simp [reachable]

theorem mem_reachable_of_Reach (s : Heap) (n c : Ref) (hnc : Reach s n c) :
    ∀ h, heightLE s h n = true → c ∈ reachable s h n := by
  unfold Reach at hnc
  induction hnc using Relation.ReflTransGen.head_induction_on with
  | refl => exact fun h _ => mem_reachable_self s h c
  | head hab _ ih =>
    intro h ha
    cases h with
    | zero => simp [heightLE] at ha
    | succ k =>
      have hb := (heightLE_succ_iff s k _).1 ha _ hab
      simp only [reachable, List.mem_cons, List.mem_flatMap]
      exact Or.inr ⟨_, hab, ih k hb⟩

theorem exists_common_heightLE (s : Heap) :
    ∀ (cs : List Ref), (∀ c ∈ cs, ∃ h, heightLE s h c = true) →
      ∃ H, ∀ c ∈ cs, heightLE s H c = true := by
  intro cs
  induction cs with
  | nil => exact fun _ => ⟨0, fun c hc => by cases hc⟩
  | cons a rest ih =>
    intro h
    obtain ⟨ha, hha⟩ := h a (List.mem_cons_self _ _)
    obtain ⟨H, hH⟩ := ih (fun c hc => h c (List.mem_cons_of_mem _ hc))
    refine ⟨max ha H, fun c hc => ?_⟩
    rcases List.mem_cons.1 hc with rfl | hmem
    · exact heightLE_mono s c ha _ (Nat.le_max_left _ _) hha
    · exact heightLE_mono s c H _ (Nat.le_max_right _ _) (hH c hmem)

theorem exists_heightLE_of_Acyclic (s : Heap) (n : Ref) (objs : List Ref)
    (hfin : ∀ c, Reach s n c → c ∈ objs) (hacyc : Acyclic s n) :
    ∃ h, heightLE s h n = true := by
  have hfinT : Finite {c : Ref // Reach s n c} :=
    Finite.of_injective
      (fun t : {c : Ref // Reach s n c} => (⟨t.1, hfin t.1 t.2⟩ : {c : Ref // c ∈ objs}))
      (fun a b hab => Subtype.ext (congrArg (fun u : {c : Ref // c ∈ objs} => u.1) hab))
  have htrans : IsTrans {c : Ref // Reach s n c} (fun a b => Descendant s b.1 a.1) :=
    ⟨fun _ _ _ hab hbc => Relation.TransGen.trans hbc hab⟩
  have hirrefl : IsIrrefl {c : Ref // Reach s n c} (fun a b => Descendant s b.1 a.1) :=
    ⟨fun a haa => hacyc a.1 a.2 haa⟩
  have wf : WellFounded (fun a b : {c : Ref // Reach s n c} => Descendant s b.1 a.1) :=
    Finite.wellFounded_of_trans_of_irrefl _
  have key : ∀ t : {c : Ref // Reach s n c}, ∃ h, heightLE s h t.1 = true := by
    intro t
    induction t using wf.induction with
    | _ t ih =>
      have hkids : ∀ c ∈ (s t.1).children_, ∃ h, heightLE s h c = true := by
        intro c hc
        exact ih ⟨c, Relation.ReflTransGen.tail t.2 hc⟩ (Relation.TransGen.single hc)
      obtain ⟨H, hH⟩ := exists_common_heightLE s _ hkids
      exact ⟨H + 1, (heightLE_succ_iff s H t.1).2 hH⟩
  exact key ⟨n, Relation.ReflTransGen.refl⟩

theorem exists_IsHeight (s : Heap) (n : Ref) (h0 : Nat) (hn : heightLE s h0 n = true) :
    ∃ h, h ≤ h0 ∧ IsHeight s n h := by
  have hex : ∃ h, heightLE s h n = true := ⟨h0, hn⟩
  exact ⟨Nat.find hex, Nat.find_min' hex hn, Nat.find_spec hex,
    fun k hk => Nat.find_min' hex hk⟩

theorem Operation_of_IsHeight (s : Heap) (n : Ref) (h : Nat) (hh : IsHeight s n h) :
    ∃ r, (∀ fuel, h ≤ fuel → Operation s fuel n = some r) ∧
      (∀ fuel, fuel < h → Operation s fuel n = none) := by
  obtain ⟨r, hr⟩ := Operation_some_of_heightLE s h n hh.1
  refine ⟨r, fun fuel hf => Operation_mono s n r h fuel hf hr, ?_⟩
  intro fuel hf
  cases hop : Operation s fuel n with
  | none => rfl
  | some r' =>
    have := hh.2 fuel (heightLE_of_Operation_some s fuel n r' hop)
    omega

/-- C12: in a state where the objects reachable from `n` through child links
are finitely many (all among `objs`) and none of them has itself among its
descendants, the tree below `n` has a height `h` (in levels), and
`Operation()` on `n` terminates and returns a string `r`: a call chain of
depth `h` is enough, every larger bound gives the same `r`, and no smaller
bound is enough, so the depth of the call chain is exactly the height.
Sharing of objects (a directed acyclic graph rather than a tree) is allowed. -/
theorem Operation_terminates (s : Heap) (n : Ref) (objs : List Ref)
    (hfin : ∀ c, Reach s n c → c ∈ objs) (hacyc : Acyclic s n) :
    ∃ h r, IsHeight s n h ∧
      (∀ fuel, h ≤ fuel → Operation s fuel n = some r) ∧
      (∀ fuel, fuel < h → Operation s fuel n = none) := by
  obtain ⟨h0, hh0⟩ := exists_heightLE_of_Acyclic s n objs hfin hacyc
  obtain ⟨h, _, hh⟩ := exists_IsHeight s n h0 hh0
  obtain ⟨r, hr⟩ := Operation_of_IsHeight s n h hh
  exact ⟨h, r, hh, hr⟩

/-- Witness of C12: the root `3` of the store `sharedLeaf`, below which the
leaf `0` is a child of both `4` and `5`. -/
theorem Operation_terminates_witness :
    ∃ h r, IsHeight sharedLeaf 3 h ∧
      (∀ fuel, h ≤ fuel → Operation sharedLeaf fuel 3 = some r) ∧
      (∀ fuel, fuel < h → Operation sharedLeaf fuel 3 = none) :=
  Operation_terminates sharedLeaf 3 (reachable sharedLeaf 3 3)
    (fun c hc => mem_reachable_of_Reach sharedLeaf 3 c hc 3 (by decide))
    (Acyclic_of_heightLE sharedLeaf 3 3 (by decide))

/-! ## Cycles -/

theorem Operation_none_of_cycle (s : Heap) (c : Ref) (hcyc : Descendant s c c) (fuel : Nat) :
    Operation s fuel c = none := by
  cases hop : Operation s fuel c with
  | none => rfl
  | some r =>
    have h1 := heightLE_of_Operation_some s fuel c r hop
    rw [not_heightLE_of_cycle s c hcyc fuel] at h1
    cases h1

theorem exists_Composite_of_IsComposite (s : Heap) (c : Ref) (h : IsComposite s c = true) :
    ∃ p cs, s c = .Composite p cs := by
  unfold IsComposite at h
  split at h
  · simp at h
  · rename_i p cs hc
    exact ⟨p, cs, hc⟩

theorem Add_Child_new (s s' : Heap) (c x : Ref) (p : Option Ref) (cs : List Ref)
    (hc : s c = .Composite p cs) (h : Add s c (some x) = some s') : Child s' c x := by
  rw [Add_Composite s c x p cs hc] at h
  simp only [Option.some.injEq] at h
  subst h
  unfold Child
  rw [SetParent_children, Function.update_same]
  simp [Component.children_]

theorem Add_Child_mono (s s' : Heap) (b : Ref) (component : Option Ref) (a x : Ref)
    (h : Add s b component = some s') (hax : Child s a x) : Child s' a x := by
  unfold Add at h
  split at h
  · cases h; exact hax
  · rename_i p cs hb
    cases component with
    | none => simp at h
    | some y =>
      simp only [Option.some.injEq] at h
      subst h
      unfold Child at hax ⊢
      rw [SetParent_children]
      by_cases hab : a = b
      · subst hab
        rw [Function.update_same]
        rw [hb] at hax
        simp only [Component.children_] at hax ⊢
        exact List.mem_append_left _ hax
      · rw [Function.update_noteq hab]
        exact hax

/-- C13: `Add` performs no cycle check, and a cycle makes `Operation()` recurse
without bound.  For every composite `c` that has itself among its descendants,
`c.Operation()` returns within no bound on the depth of the call chain.
`c.Add(c)` on a composite returns and leads to such a state, and so do
`c.Add(b)` followed by `b.Add(c)` on two composites. -/
theorem Operation_cycle_unbounded (s : Heap) (c : Ref) :
    (Descendant s c c → ∀ fuel, Operation s fuel c = none) ∧
      (∀ p cs, s c = .Composite p cs →
        ∃ s', Add s c (some c) = some s' ∧ Descendant s' c c ∧
          ∀ fuel, Operation s' fuel c = none) ∧
      (∀ b p cs q ds, s c = .Composite p cs → s b = .Composite q ds →
        ∃ s', run 0 s [.Add c (some b), .Add b (some c)] = some s' ∧
          Descendant s' c c ∧ Descendant s' b b ∧
          (∀ fuel, Operation s' fuel c = none) ∧ (∀ fuel, Operation s' fuel b = none)) := by
  refine ⟨fun hcyc fuel => Operation_none_of_cycle s c hcyc fuel, ?_, ?_⟩
  · intro p cs hc
    have hadd := Add_Composite s c c p cs hc
    have hcyc : Descendant _ c c := Relation.TransGen.single (Add_Child_new s _ c c p cs hc hadd)
    exact ⟨_, hadd, hcyc, fun fuel => Operation_none_of_cycle _ c hcyc fuel⟩
  · intro b p cs q ds hc hb
    have hadd1 := Add_Composite s c b p cs hc
    have hcb1 := Add_Child_new s _ c b p cs hc hadd1
    have hbcomp : IsComposite (SetParent (Function.update s c (.Composite p (cs ++ [b]))) b
        (some c)) b = true := by
      rw [Add_IsComposite s _ c (some b) hadd1 b]
      simp [IsComposite, hb]
    obtain ⟨q', ds', hb1⟩ := exists_Composite_of_IsComposite _ b hbcomp
    have hadd2 := Add_Composite _ b c q' ds' hb1
    have hbc2 := Add_Child_new _ _ b c q' ds' hb1 hadd2
    have hcb2 := Add_Child_mono _ _ b (some c) c b hadd2 hcb1
    have hcc : Descendant _ c c := Relation.TransGen.head hcb2 (Relation.TransGen.single hbc2)
    have hbb : Descendant _ b b := Relation.TransGen.head hbc2 (Relation.TransGen.single hcb2)
    refine ⟨_, ?_, hcc, hbb, fun fuel => Operation_none_of_cycle _ c hcc fuel,
      fun fuel => Operation_none_of_cycle _ b hbb fuel⟩
    simp only [run, exec, hadd1, hadd2]

/-- Witness of C13: from freshly constructed objects, `3.Add(3)` on the
composite `3`, and `3.Add(4)` followed by `4.Add(3)` on the composites `3`
and `4`. -/
theorem Operation_cycle_unbounded_witness :
    (∃ s', Add fresh 3 (some 3) = some s' ∧ Descendant s' 3 3 ∧
        ∀ fuel, Operation s' fuel 3 = none) ∧
      (∃ s', run 0 fresh [.Add 3 (some 4), .Add 4 (some 3)] = some s' ∧
        Descendant s' 3 3 ∧ Descendant s' 4 4 ∧
        (∀ fuel, Operation s' fuel 3 = none) ∧ (∀ fuel, Operation s' fuel 4 = none)) :=
  ⟨(Operation_cycle_unbounded fresh 3).2.1 none [] (by decide),
    (Operation_cycle_unbounded fresh 3).2.2 4 none [] none [] (by decide) (by decide)⟩

/-! ## The usage discipline keeps child sequences and parents in agreement -/

theorem Add_children_of (s s' : Heap) (c x : Ref) (p : Option Ref) (cs : List Ref)
    (hc : s c = .Composite p cs) (h : Add s c (some x) = some s') (a : Ref) :
    (s' a).children_ = if a = c then cs ++ [x] else (s a).children_ := by
  rw [Add_Composite s c x p cs hc] at h
  simp only [Option.some.injEq] at h
  subst h
  rw [SetParent_children]
  by_cases ha : a = c
  · subst ha
    rw [Function.update_same, if_pos rfl]; rfl
  · rw [Function.update_noteq ha, if_neg ha]

theorem Add_GetParent_of (s s' : Heap) (c x : Ref) (p : Option Ref) (cs : List Ref)
    (hc : s c = .Composite p cs) (h : Add s c (some x) = some s') (y : Ref) :
    GetParent s' y = if y = x then some c else GetParent s y := by
  by_cases hy : y = x
  · subst hy
    rw [Add_Composite s c y p cs hc] at h
    simp only [Option.some.injEq] at h
    subst h
    simp [GetParent]
  · rw [if_neg hy]
    exact Add_GetParent_other s s' c (some x) y h (fun e => hy (Option.some.inj e).symm)

theorem Remove_children_of (s s' : Heap) (c x : Ref) (p : Option Ref) (cs : List Ref)
    (hc : s c = .Composite p cs) (h : Remove s c (some x) = some s') (a : Ref) :
    (s' a).children_ = if a = c then cs.filter (fun y => y ≠ x) else (s a).children_ := by
  rw [Remove_Composite s c x p cs hc] at h
  simp only [Option.some.injEq] at h
  subst h
  rw [SetParent_children]
  by_cases ha : a = c
  · subst ha
    rw [Function.update_same, if_pos rfl]; rfl
  · rw [Function.update_noteq ha, if_neg ha]

theorem Remove_GetParent_of (s s' : Heap) (c x : Ref) (p : Option Ref) (cs : List Ref)
    (hc : s c = .Composite p cs) (h : Remove s c (some x) = some s') (y : Ref) :
    GetParent s' y = if y = x then none else GetParent s y := by
  by_cases hy : y = x
  · subst hy
    rw [Remove_Composite s c y p cs hc] at h
    simp only [Option.some.injEq] at h
    subst h
    simp [GetParent]
  · rw [if_neg hy]
    exact Remove_GetParent_other s s' c (some x) y h (fun e => hy (Option.some.inj e).symm)

theorem Consistent_Add (s s' : Heap) (c x : Ref) (p : Option Ref) (cs : List Ref)
    (hc : s c = .Composite p cs) (hs : Consistent s) (hx : GetParent s x = none)
    (h : Add s c (some x) = some s') : Consistent s' := by
  have hcs : (s c).children_ = cs := by rw [hc]; rfl
  intro a y
  rw [Add_children_of s s' c x p cs hc h a, Add_GetParent_of s s' c x p cs hc h y]
  have hnot : ∀ b, x ∉ (s b).children_ := by
    intro b hb
    have := (hs b x).1.1 hb
    rw [hx] at this
    cases this
  by_cases ha : a = c
  · subst ha
    rw [if_pos rfl]
    by_cases hy : y = x
    · subst hy
      rw [if_pos rfl]
      have hcount : cs.count y = 0 := List.count_eq_zero.2 (hcs ▸ hnot a)
      refine ⟨⟨fun _ => rfl, fun _ => by simp⟩, ?_⟩
      rw [List.count_append, hcount]
      simp
    · rw [if_neg hy]
      have hinv := hs a y
      rw [hcs] at hinv
      refine ⟨⟨fun hmem => ?_, fun hpar => ?_⟩, ?_⟩
      · rcases List.mem_append.1 hmem with h1 | h1
        · exact hinv.1.1 h1
        · exact absurd (List.mem_singleton.1 h1) hy
      · exact List.mem_append_left _ (hinv.1.2 hpar)
      · rw [List.count_append, List.count_singleton]
        have hyx : ¬ (x == y) = true := by simpa using fun e : x = y => hy e.symm
        simp only [hyx, if_false, Nat.add_zero]
        exact hinv.2
  · rw [if_neg ha]
    by_cases hy : y = x
    · subst hy
      rw [if_pos rfl]
      refine ⟨⟨fun hmem => absurd hmem (hnot a), fun hpar => ?_⟩, (hs a y).2⟩
      exact absurd (Option.some.inj hpar).symm ha
    · rw [if_neg hy]
      exact hs a y

theorem Consistent_Remove (s s' : Heap) (c x : Ref) (p : Option Ref) (cs : List Ref)
    (hc : s c = .Composite p cs) (hs : Consistent s) (hx : GetParent s x = some c)
    (h : Remove s c (some x) = some s') : Consistent s' := by
  have hcs : (s c).children_ = cs := by rw [hc]; rfl
  intro a y
  rw [Remove_children_of s s' c x p cs hc h a, Remove_GetParent_of s s' c x p cs hc h y]
  by_cases ha : a = c
  · subst ha
    rw [if_pos rfl]
    have hinv := hs a y
    rw [hcs] at hinv
    have hcount : (cs.filter (fun z => z ≠ x)).count y ≤ 1 :=
      Nat.le_trans ((List.filter_sublist cs).count_le y) hinv.2
    by_cases hy : y = x
    · subst hy
      rw [if_pos rfl]
      refine ⟨⟨fun hmem => ?_, fun hpar => by cases hpar⟩, hcount⟩
      have := (List.mem_filter.1 hmem).2
      simp at this
    · rw [if_neg hy]
      refine ⟨⟨fun hmem => hinv.1.1 (List.mem_filter.1 hmem).1, fun hpar => ?_⟩, hcount⟩
      exact List.mem_filter.2 ⟨hinv.1.2 hpar, by simpa using hy⟩
  · rw [if_neg ha]
    by_cases hy : y = x
    · subst hy
      rw [if_pos rfl]
      refine ⟨⟨fun hmem => ?_, fun hpar => by cases hpar⟩, (hs a y).2⟩
      have := (hs a y).1.1 hmem
      rw [hx] at this
      exact absurd (Option.some.inj this).symm ha
    · rw [if_neg hy]
      exact hs a y

theorem Consistent_exec (fuel : Nat) (s s' : Heap) (call : Call) (hs : Consistent s)
    (hallowed : call.allowed s = true) (h : exec fuel s call = some s') : Consistent s' := by
  cases call with
  | SetParent self parent => simp [Call.allowed] at hallowed
  | Add self component =>
    simp only [exec] at h
    cases hobj : s self with
    | Leaf p =>
      simp only [Add, hobj, Option.some.injEq] at h
      subst h; exact hs
    | Composite p cs =>
      cases component with
      | none => simp [Add, hobj] at h
      | some x =>
        have hx : GetParent s x = none := by simpa [Call.allowed] using hallowed
        exact Consistent_Add s s' self x p cs hobj hs hx h
  | Remove self component =>
    simp only [exec] at h
    cases hobj : s self with
    | Leaf p =>
      simp only [Remove, hobj, Option.some.injEq] at h
      subst h; exact hs
    | Composite p cs =>
      cases component with
      | none => simp [Remove, hobj] at h
      | some x =>
        have hx : GetParent s x = some self := by simpa [Call.allowed] using hallowed
        exact Consistent_Remove s s' self x p cs hobj hs hx h
  | Operation self =>
    simp only [exec] at h
    split at h
    · simp at h
    · cases h; exact hs

theorem Consistent_run (fuel : Nat) (calls : List Call) :
    ∀ (s s' : Heap), Consistent s → disciplined fuel s calls = true →
      run fuel s calls = some s' → Consistent s' := by
  induction calls with
  | nil =>
    intro s s' hs _ h
    simp only [run, Option.some.injEq] at h
    subst h; exact hs
  | cons call rest ih =>
    intro s s' hs hd h
    simp only [run] at h
    simp only [disciplined, Bool.and_eq_true] at hd
    cases hex : exec fuel s call with
    | none => simp [hex] at h
    | some s1 =>
      rw [hex] at h
      have hd2 := hd.2
      rw [hex] at hd2
      exact ih s1 s' (Consistent_exec fuel s s1 call hs hd.1 hex) hd2 h

/-- C16: from a state in which every child sequence is empty and every parent
back-reference is absent, every state reached by a sequence of calls that
follows the usage discipline (`Add(x)` only when the parent of `x` is absent,
`Remove(x)` only on the object the parent of `x` identifies, no direct
`SetParent`) satisfies: for every object `c` and component `x`, `x` occurs in
the child sequence of `c` if and only if the parent back-reference of `x`
identifies `c`, and `x` occurs there at most once. -/
theorem discipline_keeps_consistency (s0 : Heap)
    (hinit : ∀ r, (s0 r).children_ = [] ∧ GetParent s0 r = none)
    (fuel : Nat) (calls : List Call) (s' : Heap)
    (hd : disciplined fuel s0 calls = true) (hrun : run fuel s0 calls = some s') :
    ∀ c x, (x ∈ (s' c).children_ ↔ GetParent s' x = some c) ∧
      (s' c).children_.count x ≤ 1 := by
  have h0 : Consistent s0 := by
    intro c x
    rw [(hinit c).1, (hinit x).2]
    simp
  exact Consistent_run fuel calls s0 s' h0 hd hrun

theorem fresh_initial (r : Ref) : (fresh r).children_ = [] ∧ GetParent fresh r = none := by
  unfold GetParent fresh
  split <;> exact ⟨rfl, rfl⟩

/-- Witness of C16: from freshly constructed objects, the leaves `0` and `1`
are added to the composite `4`, `4` is added to `3`, `0` is moved from `4` to
`5` by `Remove` and `Add`, `3.Operation()` is called and `0.Add(2)` is called
on the leaf `0`. -/
theorem discipline_keeps_consistency_witness :
    ∃ s', run 3 fresh [.Add 4 (some 0), .Add 4 (some 1), .Add 3 (some 4), .Remove 4 (some 0),
        .Add 5 (some 0), .Operation 3, .Add 0 (some 2)] = some s' ∧
      ∀ c x, (x ∈ (s' c).children_ ↔ GetParent s' x = some c) ∧
        (s' c).children_.count x ≤ 1 :=
  ⟨_, rfl, discipline_keeps_consistency fresh fresh_initial 3
    [.Add 4 (some 0), .Add 4 (some 1), .Add 3 (some 4), .Remove 4 (some 0),
      .Add 5 (some 0), .Operation 3, .Add 0 (some 2)] _ (by decide) rfl⟩

end CompositePattern
